import Mathlib

/-!
Verification development for the holoviews options system
(`src/holoviews/core/options.py`): `Cycle`, `Options`, `OptionTree`,
`Compositor`. Python dictionaries of keyword options are embedded as
association lists (first binding wins on lookup), Python exceptions as
`Except`, and the external helpers `sanitize_identifier` and the
`AttrTree` child storage as an abstract renaming function plus an
ordered association list of children.
-/

namespace Holo

/-! ### Association lists standing in for Python dicts -/

/-- First-binding-wins lookup in an association list (Python dict lookup). -/
def lookupKw {α : Type} : List (String × α) → String → Option α
  | [], _ => none
  | p :: ps, k => if p.1 = k then some p.2 else lookupKw ps k

/-- Left-biased choice on options. -/
def optOr {α : Type} : Option α → Option α → Option α
  | some v, _ => some v
  | none, b => b

/-- The Python expression dict(a, **b): b overrides a, keys of a keep their
position, new keys of b are appended. -/
def dictMerge {α : Type} (a b : List (String × α)) : List (String × α) :=
  a.map (fun p => match lookupKw b p.1 with | some v => (p.1, v) | none => p)
  ++ b.filter (fun p => (lookupKw a p.1).isNone)

/-! ### String helpers (kernel-computable versions of endswith and sorting) -/

/-- The Python expression s.endswith(suf). -/
def strEndsWith (s suf : String) : Bool :=
  decide (s.data.reverse.take suf.data.length = suf.data.reverse)

/-- Lexicographic comparison of char lists by code point. -/
def charsLe : List Char → List Char → Bool
  | [], _ => true
  | _ :: _, [] => false
  | a :: as, b :: bs =>
    if a.toNat < b.toNat then true
    else if b.toNat < a.toNat then false
    else charsLe as bs

/-- Lexicographic string comparison, as used by Python sorted on strings. -/
def strLe (a b : String) : Bool := charsLe a.data b.data

/-! ### A stable insertion sort (Python sorted is a stable sort) -/

/-- Insert x into l, before the first element y with le x y (stable). -/
def insertLe {α : Type} (le : α → α → Bool) (x : α) : List α → List α
  | [] => [x]
  | y :: ys => if le x y then x :: y :: ys else y :: insertLe le x ys

/-- Stable insertion sort with respect to the boolean relation le. -/
def sortLe {α : Type} (le : α → α → Bool) : List α → List α
  | [] => []
  | x :: xs => insertLe le x (sortLe le xs)

/-! ### Cycle (`Cycle._get_values`, options.py lines 97-102)

A Cycle carries an optional lookup key and explicit values; on
construction `_get_values` resolves the concrete value sequence against
the `default_cycles` catalog. The Python `ValueError` (no values, no
key) and `KeyError` (key absent from the catalog) are embedded as
`Except.error` with a tag string. -/

structure CycleE where
  key : String := "grayscale"
  values : List Int := []
deriving DecidableEq

/-- `Cycle._get_values`: explicit values win; otherwise a non-empty key is
looked up in the catalog; otherwise an error. Python truthiness: an empty
list and an empty string are both falsy. -/
def getValues (catalog : List (String × List Int)) (c : CycleE) : Except String (List Int) :=
  if c.values ≠ [] then .ok c.values
  else if c.key ≠ "" then
    match lookupKw catalog c.key with
    | some vs => .ok vs
    | none => .error "KeyError"
  else .error "ValueError"

/-! ### Options (`Options`, options.py lines 187-282) -/

/-- A keyword value is either a plain (static) value or a Cycle. -/
inductive OptVal where
  | static (v : Int)
  | cyc (c : CycleE)
deriving DecidableEq

def OptVal.isCycle : OptVal → Bool
  | .cyc _ => true
  | _ => false

abbrev Kwargs := List (String × OptVal)

/-- The non-Cycle items of the keyword mapping (`filter_static`). -/
def filterStatic (kw : Kwargs) : Kwargs :=
  kw.filter (fun p => !p.2.isCycle)

/-- The Cycle-valued items of the keyword mapping (`filter_cycles`). -/
def filterCycles (kw : Kwargs) : List (String × CycleE) :=
  kw.filterMap (fun p => match p.2 with | .cyc c => some (p.1, c) | _ => none)

/-- The Python expression zip(*lists): position-wise tuples, truncated to
the shortest list. -/
def multiZip : List (List Int) → List (List Int)
  | [] => []
  | [l] => l.map (fun x => [x])
  | l :: ls => (l.zip (multiZip ls)).map (fun p => p.1 :: p.2)

/-- `Options._expand_options` (options.py lines 226-241): with no Cycle
values the expansion is the single original mapping; otherwise the
position-wise zip across all Cycle values, each entry combined with the
static items. -/
def expandOptions (kw : Kwargs) : List Kwargs :=
  let cycles := filterCycles kw
  if cycles.isEmpty then [kw]
  else
    (multiZip (cycles.map (fun p => p.2.values))).map
      (fun tps => ((cycles.map (fun p => p.1)).zip (tps.map OptVal.static)) ++ filterStatic kw)

/-- The data carried by an `OptionError` (options.py lines 44-59). -/
structure OptionErrorE where
  invalid_keyword : String
  allowed_keywords : List String
  group_name : Option String := none
deriving DecidableEq

/-- An `Options` object: optional key name, optional (sorted) allow-list,
and the keyword mapping. The derived `_options` field of the source is
recovered as `expandOptions kwargs`. -/
structure OptionsE where
  key : Option String := none
  allowed : Option (List String) := none
  kwargs : Kwargs := []
deriving DecidableEq

/-- `Options.__init__` (options.py lines 206-214): iterate the keyword
names in sorted order and fail on the first name outside a *truthy*
allow-list (Python: `if allowed_keywords and kwarg not in allowed_keywords`,
so a None or empty allow-list disables validation). The stored allow-list
is the sorted one, or None when the given list is empty. -/
def optionsInit (key : Option String) (allowed : Option (List String)) (kw : Kwargs) :
    Except OptionErrorE OptionsE :=
  match allowed with
  | some (a :: al) =>
    match (sortLe strLe (kw.map (fun p => p.1))).find? (fun k => !(a :: al).contains k) with
    | some k => .error ⟨k, a :: al, none⟩
    | none => .ok ⟨key, some (sortLe strLe (a :: al)), kw⟩
  | _ => .ok ⟨key, none, kw⟩

/-- `Options.__call__` (options.py lines 217-223): inherit the parent
options, overriding with the new keywords; an absent (None) allow-list
argument means the current allow-list is kept. -/
def optionsCall (o : OptionsE) (allowedArg : Option (List String)) (kw : Kwargs) :
    Except OptionErrorE OptionsE :=
  let ak := match allowedArg with
    | some l => some l
    | none => o.allowed
  optionsInit o.key ak (dictMerge o.kwargs kw)

/-- `Options.__getitem__` (options.py lines 260-265): infinite cyclic
indexing, `self._options[index % len(self._options)]`. Python `%` on a
positive modulus agrees with `Int.emod`. -/
def optionsGet (o : OptionsE) (i : Int) : Kwargs :=
  let opts := expandOptions o.kwargs
  opts.getD (i.emod opts.length).toNat []

/-- The `Options.options` property (options.py lines 268-274): the single
concrete mapping, or an error (here `none`) when the expansion is cyclic. -/
def optionsProp (o : OptionsE) : Option Kwargs :=
  let opts := expandOptions o.kwargs
  if opts.length = 1 then some (opts.getD 0 []) else none

/-! ### OptionTree (`OptionTree`, options.py lines 286-450)

Modelled from the spec: the `AttrTree` base class is not under src/;
per the spec a node has an identifier, an ordered set of named children
(insertion order), and the dotted path of identifiers from the root.
Children are embedded as an ordered association list. The external
`sanitize_identifier` is likewise not under src/ and is passed in as an
abstract renaming function `san`. -/

inductive OTree where
  | mk (ident : String) (groups : List (String × OptionsE)) (children : List (String × OTree))

def OTree.ident : OTree → String
  | .mk i _ _ => i

def OTree.groups : OTree → List (String × OptionsE)
  | .mk _ g _ => g

def OTree.children : OTree → List (String × OTree)
  | .mk _ _ c => c

def lookupChild (t : OTree) (i : String) : Option OTree :=
  lookupKw t.children i

/-- The expression `self[identifier] if identifier in self.children else self`. -/
def childOrSelf (t : OTree) (i : String) : OTree :=
  (lookupChild t i).getD t

/-- Errors raised by the tree operations: a wrapped `OptionError`, the
`KeyError` for a group missing from the schema, and the `ValueError` for
an empty group dictionary. -/
inductive TreeErr where
  | optErr (e : OptionErrorE)
  | keyErr (g : String)
  | valueErr
deriving DecidableEq

/-- `OptionTree._inherited_options` (options.py lines 309-331): compute the
inherited Options for a group from a new Options object. The allow-list
override is the new Options allow-list while the tree is still being
built (`inst = false`); once built it is the existing child allow-list
when the child exists, and otherwise no override (so the current group
Options allow-list applies). An `OptionError` is re-raised with the
group name attached. -/
def inheritedAllowed (inst : Bool) (t : OTree) (i g : String) (o : OptionsE) :
    Option (List String) :=
  if !inst then o.allowed
  else match lookupChild t i with
    | some c =>
      match lookupKw c.groups g with
      | some go => go.allowed
      | none => none
    | none => none

def inheritedOptions (inst : Bool) (t : OTree) (i g : String) (o : OptionsE) :
    Except TreeErr OptionsE :=
  if (lookupKw t.groups g).isNone then .error (.keyErr g)
  else
    match lookupKw (childOrSelf t i).groups g with
    | none => .error (.keyErr g)
    | some go =>
      match optionsCall go (inheritedAllowed inst t i g o) o.kwargs with
      | .ok o3 => .ok o3
      | .error e => .error (.optErr { e with group_name := some g })

/-- The loop of `OptionTree.__setattr__` (options.py lines 372-378) over
the groups of the current node: a group present in the assigned mapping
is merged through `_inherited_options`, any other group keeps its
current Options. -/
def buildGroups (inst : Bool) (t : OTree) (i : String) (gi : List (String × OptionsE)) :
    List (String × OptionsE) → Except TreeErr (List (String × OptionsE))
  | [] => .ok []
  | (g, gopts) :: rest =>
    match (match lookupKw gi g with
           | some o => inheritedOptions inst t i g o
           | none => .ok gopts) with
    | .error e => .error e
    | .ok o2 =>
      match buildGroups inst t i gi rest with
      | .error e => .error e
      | .ok rest2 => .ok ((g, o2) :: rest2)

/-- Store a child node under an identifier: replace in place when the
identifier exists, append otherwise (AttrTree insertion order). -/
def setEntry (children : List (String × OTree)) (i : String) (n : OTree) :
    List (String × OTree) :=
  if (lookupKw children i).isSome then
    children.map (fun p => if p.1 = i then (i, n) else p)
  else children ++ [(i, n)]

/-- `OptionTree.__setattr__` (options.py lines 360-388) restricted to the
dictionary case: sanitize the identifier, build the merged groups, and
store a fresh child node (no children) under the identifier. -/
def setChild (san : String → String) (inst : Bool) (t : OTree) (i : String)
    (gi : List (String × OptionsE)) : Except TreeErr OTree :=
  match buildGroups inst t (san i) gi (childOrSelf t (san i)).groups with
  | .error e => .error e
  | .ok ng =>
    if ng.isEmpty then .error .valueErr
    else .ok (OTree.mk t.ident t.groups
        (setEntry t.children (san i) (OTree.mk (san i) ng [])))

/-- A dotted assignment `root.A.B = val`: attribute access walks to the
parent node (creating missing intermediate nodes from the current groups,
as `__getattr__` does) and the final segment is assigned with
`__setattr__`. -/
def setPath (san : String → String) (inst : Bool) (t : OTree) :
    List String → List (String × OptionsE) → Except TreeErr OTree
  | [], _ => .ok t
  | [i], gi => setChild san inst t i gi
  | i :: j :: rest, gi =>
    match (if (lookupChild t (san i)).isSome then .ok t
           else setChild san inst t i t.groups : Except TreeErr OTree) with
    | .error e => .error e
    | .ok t2 =>
      match lookupChild t2 (san i) with
      | some c =>
        match setPath san inst c (j :: rest) gi with
        | .error e => .error e
        | .ok c2 => .ok (OTree.mk t2.ident t2.groups (setEntry t2.children (san i) c2))
      | none => .ok t2

/-- `OptionTree.options` (options.py lines 426-436) computed from the root
down the given child path: each level merges its own group kwargs over
the accumulated ones (`Options(**dict(parent_kwargs, **own_kwargs))`),
so descendants override ancestors. `none` models both the explicit None
for a missing group and a missing child on the path. -/
def resolveAux (g : String) (acc : Kwargs) (t : OTree) : List String → Option Kwargs
  | [] =>
    match lookupKw t.groups g with
    | none => none
    | some go => some (dictMerge acc go.kwargs)
  | c :: rest =>
    match lookupKw t.groups g with
    | none => none
    | some go =>
      match lookupChild t c with
      | some child => resolveAux g (dictMerge acc go.kwargs) child rest
      | none => none

/-- Resolve the effective kwargs of a group at the node reached by path. -/
def resolveKwargs (t : OTree) (g : String) (path : List String) : Option Kwargs :=
  resolveAux g [] t path

/-- The child selection of `OptionTree.find` (options.py lines 401-407):
children whose identifier is a suffix of the raw or sanitized segment,
stably sorted by decreasing identifier length; the head wins. -/
def bestChild (san : String → String) (t : OTree) (seg : String) : Option String :=
  (sortLe (fun a b : String => decide (b.length ≤ a.length))
    ((t.children.map (fun p => p.1)).filter
      (fun c => strEndsWith seg c || strEndsWith (san seg) c))).head?

/-- `OptionTree.find` with mode "node" (options.py lines 391-410): walk the
path greedily from the current node; descend into the best matching
child, or stay put when no child matches. -/
def findNode (san : String → String) (t : OTree) : List String → OTree
  | [] => t
  | seg :: rest =>
    match bestChild san t seg with
    | some cid =>
      match lookupChild t cid with
      | some c => findNode san c rest
      | none => findNode san t rest
    | none => findNode san t rest

/-- `OptionTree.find` with mode "path": the identifier path of the node
reached. Modelled from the spec: the `AttrTree` path attribute (the
`AttrTree` class is not under src/) lists the identifiers from the root
to the node. -/
def findPathAux (san : String → String) (t : OTree) (acc : List String) :
    List String → List String
  | [] => acc
  | seg :: rest =>
    match bestChild san t seg with
    | some cid =>
      match lookupChild t cid with
      | some c => findPathAux san c (acc ++ [cid]) rest
      | none => findPathAux san t acc rest
    | none => findPathAux san t acc rest

def findPathIds (san : String → String) (t : OTree) (path : List String) : List String :=
  findPathAux san t [] path

/-! ### Compositor (`Compositor`, options.py lines 454-654)

Overlay elements are embedded by the triple the matcher consults (type
name, group, label); `Overlay.from_values` and `relabel` are modelled
from the spec as list splicing and group replacement. The operation
object is identified by a numeric id (Python object identity) and its
behavior is supplied as an abstract function `opRun` from the id, the
optional frame key, and either a bare element (the single element
unwrap in `Compositor.apply`) or the element list of the sliced
sub-overlay, to the resulting element. -/

/-- One 1-, 2- or 3-component entry of `_pattern_spec`. -/
inductive PatSpec where
  | t1 (ty : String)
  | t2 (ty grp : String)
  | t3 (ty grp lbl : String)
deriving DecidableEq

structure Elem where
  typeName : String
  group : String
  label : String
deriving DecidableEq

/-- The per-element step of `Compositor._slice_match_level` (options.py
lines 595-617): one point for the type, one more for the group, one more
for the label, each also matching the sanitized form; any failing
component aborts with no match. -/
def specMatch (san : String → String) : PatSpec → Elem → Option Nat
  | .t1 ty, e => if ty = e.typeName then some 1 else none
  | .t2 ty g, e =>
    if ty = e.typeName then
      if g = e.group ∨ g = san e.group then some 2 else none
    else none
  | .t3 ty g l, e =>
    if ty = e.typeName then
      if g = e.group ∨ g = san e.group then
        if l = e.label ∨ l = san e.label then some 3 else none
      else none
    else none

/-- `Compositor._slice_match_level`: the summed match level over the
zipped pattern/window pair, or none on the first failure. -/
def sliceMatchLevel (san : String → String) (specs : List PatSpec) (els : List Elem) :
    Option Nat :=
  (specs.zip els).foldl
    (fun acc p => acc.bind (fun a => (specMatch san p.1 p.2).map (fun b => a + b)))
    (some 0)

structure CompositorE where
  pattern_spec : List PatSpec
  opId : Nat
  group : String
  mode : String
deriving DecidableEq

/-- `Compositor.match_level` (options.py lines 620-642): slide a window of
the pattern width over the overlay, keeping the first window that
strictly improves the best level (initially 0); return the level and the
slice bounds, or none when no window scores above 0. -/
def matchLevel (san : String → String) (c : CompositorE) (ov : List Elem) :
    Option (Nat × Nat × Nat) :=
  let w := c.pattern_spec.length
  if w > ov.length then none
  else
    let best := (List.range (ov.length - w + 1)).foldl
      (fun (b : Nat × Option (Nat × Nat)) i =>
        match sliceMatchLevel san c.pattern_spec ((ov.drop i).take w) with
        | none => b
        | some lvl => if b.1 < lvl then (lvl, some (i, i + w)) else b)
      (0, none)
    if best.1 = 0 then none
    else best.2.map (fun sl => (best.1, sl))

abbrev Match := Nat × CompositorE × (Nat × Nat)

/-- The match list of `Compositor.strongest_match` (options.py lines
508-510): every registered compositor of the requested mode with a
non-None match level, in registration order. -/
def matchesFor (san : String → String) (defs : List CompositorE) (mode : String)
    (ov : List Elem) : List Match :=
  (defs.filter (fun c => c.mode = mode)).filterMap
    (fun c => (matchLevel san c ov).map (fun m => (m.1, c, m.2)))

/-- `Compositor.strongest_match` (options.py lines 499-512): the first
element of the match list sorted in ascending order of score
(`sorted(matches)[0]`), or None when there are no matches. -/
def strongestMatch (san : String → String) (defs : List CompositorE) (mode : String)
    (ov : List Elem) : Option Match :=
  (sortLe (fun a b : Match => decide (a.1 ≤ b.1)) (matchesFor san defs mode ov)).head?

structure OverlayE where
  values : List Elem
  oid : Option Int
deriving DecidableEq

/-- `Compositor.apply` (options.py lines 645-654): a single element
sub-overlay is unwrapped to the bare element before the operation runs;
otherwise the operation receives the element sequence. -/
def applyOp (opRun : Nat → Option Int → Elem ⊕ List Elem → Elem) (c : CompositorE)
    (vals : List Elem) (key : Option Int) : Elem :=
  match vals with
  | [v] => opRun c.opId key (.inl v)
  | vs => opRun c.opId key (.inr vs)

/-- `result.relabel(group=...)`: replace the group label of the result. -/
def relabel (e : Elem) (g : String) : Elem :=
  { e with group := g }

/-- `Compositor.collapse_element` (options.py lines 515-530): with no
match the overlay is returned unchanged; otherwise the matched slice is
cut out, the operation applied to it, the result relabelled with the
compositor output group and spliced back in place, and the original
overlay id kept. -/
def collapseElement (san : String → String) (opRun : Nat → Option Int → Elem ⊕ List Elem → Elem)
    (defs : List CompositorE) (ov : OverlayE) (key : Option Int) (mode : String) : OverlayE :=
  match strongestMatch san defs mode ov.values with
  | none => ov
  | some (_, c, start, stop) =>
    let vals := ov.values
    let result := relabel (applyOp opRun c ((vals.drop start).take (stop - start)) key) c.group
    { values := vals.take start ++ [result] ++ vals.drop stop, oid := ov.oid }

/-- The registry state: `Compositor.definitions` and
`Compositor.operations` (options.py lines 495-496), both initially
empty. Operations are compared by identity, embedded as opId. -/
structure RegState where
  definitions : List CompositorE
  operations : List Nat
deriving DecidableEq

/-- `Compositor.register` (options.py lines 549-556): drop the first
definition with the same output group if present, append the new
compositor, and append its operation when not yet recorded. -/
def registerC (st : RegState) (c : CompositorE) : RegState :=
  let defs :=
    if (st.definitions.map (fun d => d.group)).contains c.group then
      st.definitions.eraseP (fun d => d.group == c.group)
    else st.definitions
  { definitions := defs ++ [c],
    operations :=
      if st.operations.contains c.opId then st.operations
      else st.operations ++ [c.opId] }

/-- First-seen deduplication: the order the operations list accumulates. -/
def firstSeen (l : List Nat) : List Nat :=
  l.foldl (fun acc x => if acc.contains x then acc else acc ++ [x]) []

/-! ### Concrete instances used to exercise the theorems -/

/-- The identity sanitizer: identifiers that are already valid Python
identifiers are left unchanged by sanitize_identifier. -/
def sanId : String → String := fun s => s

/-- An option tree root with the single group "plot" and no options set. -/
def tree0 : OTree := .mk "root" [("plot", { kwargs := [] })] []

def giX : List (String × OptionsE) := [("plot", { kwargs := [("x", OptVal.static 1)] })]

def giY : List (String × OptionsE) := [("plot", { kwargs := [("y", OptVal.static 2)] })]

def imageNode : OTree := .mk "Image" [("plot", { kwargs := [("z", OptVal.static 3)] })] []

/-- A root whose only child is "Image". -/
def timg : OTree := .mk "root" [("plot", { kwargs := [] })] [("Image", imageNode)]

def eR : Elem := ⟨"Image", "R", ""⟩

def eG : Elem := ⟨"Image", "G", ""⟩

def eX : Elem := ⟨"Curve", "", ""⟩

def c1a : CompositorE := ⟨[PatSpec.t1 "Image"], 0, "A", "data"⟩

def c1b : CompositorE := ⟨[PatSpec.t2 "Image" "R"], 1, "B", "data"⟩

def cRGB : CompositorE := ⟨[PatSpec.t2 "Image" "R", PatSpec.t2 "Image" "G"], 0, "RGB", "data"⟩

def opRunW : Nat → Option Int → Elem ⊕ List Elem → Elem := fun _ _ _ => ⟨"RGB", "out", ""⟩

/-- Keywords with two Cycles of unequal lengths and one static value. -/
def kwC3 : Kwargs :=
  [("a", OptVal.cyc ⟨"", [1, 2, 3]⟩), ("s", OptVal.static 9), ("b", OptVal.cyc ⟨"", [4, 5]⟩)]

/-- An Options value with a single Cycle of length 2 and a static key. -/
def o4 : OptionsE := { kwargs := [("a", OptVal.cyc ⟨"", [1, 2]⟩), ("s", OptVal.static 9)] }

/-- An Options value with only static keywords. -/
def oStat : OptionsE := { kwargs := [("s", OptVal.static 9)] }

/-- A compositor sharing the output group of c1a but with another
operation. -/
def c1a2 : CompositorE := ⟨[PatSpec.t1 "Curve"], 2, "A", "display"⟩

/-- The tree obtained from tree0 by root.A = plot Options(x=1). -/
def treeA : OTree :=
  OTree.mk "root" [("plot", { kwargs := [] })]
    [("A", OTree.mk "A" [("plot", { kwargs := [("x", OptVal.static 1)] })] [])]

/-! ### Helper lemmas -/

theorem optOr_none {α : Type} (a : Option α) : optOr a none = a := by
  cases a <;> rfl

theorem lookupKw_append {α : Type} (l1 l2 : List (String × α)) (k : String) :
    lookupKw (l1 ++ l2) k = optOr (lookupKw l1 k) (lookupKw l2 k) := by
  induction l1 with
  | nil => rfl
  | cons p ps ih =>
    by_cases h : p.1 = k <;> simp [lookupKw, h, ih, optOr]

theorem lookupKw_map_subst {α : Type} (a b : List (String × α)) (k : String) :
    lookupKw (a.map (fun p => match lookupKw b p.1 with | some v => (p.1, v) | none => p)) k =
      (lookupKw a k).map (fun v => match lookupKw b k with | some w => w | none => v) := by
  induction a with
  | nil => rfl
  | cons p ps ih =>
    by_cases h : p.1 = k
    · subst h
      cases hb : lookupKw b p.1 <;> simp [lookupKw, hb]
    · cases hb : lookupKw b p.1 <;> simp [lookupKw, hb, h, ih]

theorem lookupKw_filter_of_none {α : Type} (a b : List (String × α)) (k : String)
    (h : lookupKw a k = none) :
    lookupKw (b.filter (fun p => (lookupKw a p.1).isNone)) k = lookupKw b k := by
  induction b with
  | nil => rfl
  | cons q qs ih =>
    by_cases hq : q.1 = k
    · subst hq
      simp [List.filter, h, lookupKw]
    · cases hqa : (lookupKw a q.1).isNone <;> simp [List.filter, hqa, lookupKw, hq, ih]

/-- Lookup in a Python dict merge: the override mapping wins, the base
mapping is the fallback. -/
theorem lookupKw_dictMerge {α : Type} (a b : List (String × α)) (k : String) :
    lookupKw (dictMerge a b) k = optOr (lookupKw b k) (lookupKw a k) := by
  rw [dictMerge, lookupKw_append, lookupKw_map_subst]
  cases ha : lookupKw a k with
  | some v => cases hb : lookupKw b k <;> simp [optOr, hb]
  | none =>
    rw [lookupKw_filter_of_none a b k ha]
    cases hb : lookupKw b k <;> simp [optOr, hb]

theorem lookupKw_isSome_of_mem {α : Type} (l : List (String × α)) (k : String)
    (h : k ∈ l.map (fun p => p.1)) : (lookupKw l k).isSome = true := by
  induction l with
  | nil => simp at h
  | cons p ps ih =>
    by_cases hp : p.1 = k
    · simp [lookupKw, hp]
    · rw [lookupKw, if_neg hp]
      apply ih
      rcases List.mem_map.mp h with ⟨q, hq, hqk⟩
      rcases List.mem_cons.mp hq with rfl | hq2
      · exact absurd hqk hp
      · exact List.mem_map.mpr ⟨q, hq2, hqk⟩

theorem lookupKw_mapReplace (ch : List (String × OTree)) (i : String) (n : OTree)
    (h : (lookupKw ch i).isSome = true) :
    lookupKw (ch.map (fun p => if p.1 = i then (i, n) else p)) i = some n := by
  induction ch with
  | nil => simp [lookupKw] at h
  | cons p ps ih =>
    by_cases hp : p.1 = i
    · simp [lookupKw, hp]
    · rw [lookupKw, if_neg hp] at h
      simp only [List.map_cons]
      rw [if_neg hp, lookupKw, if_neg hp]
      exact ih h

theorem lookupKw_setEntry (ch : List (String × OTree)) (i : String) (n : OTree) :
    lookupKw (setEntry ch i n) i = some n := by
  rw [setEntry]
  by_cases h : (lookupKw ch i).isSome = true
  · rw [if_pos h]
    exact lookupKw_mapReplace ch i n h
  · rw [if_neg h, lookupKw_append]
    have h2 : lookupKw ch i = none := by
      cases hc : lookupKw ch i
      · rfl
      · exact absurd (by simp [hc]) h
    simp [h2, optOr, lookupKw]

theorem mem_insertLe {α : Type} (le : α → α → Bool) (x a : α) (l : List α) :
    a ∈ insertLe le x l ↔ a = x ∨ a ∈ l := by
  induction l with
  | nil => simp [insertLe]
  | cons y ys ih =>
    by_cases h : le x y
    · simp [insertLe, h]
    · simp [insertLe, h, ih]
      tauto

theorem mem_sortLe {α : Type} (le : α → α → Bool) (a : α) (l : List α) :
    a ∈ sortLe le l ↔ a ∈ l := by
  induction l with
  | nil => simp [sortLe]
  | cons x xs ih => simp [sortLe, mem_insertLe, ih]

theorem sortLe_eq_nil {α : Type} (le : α → α → Bool) (l : List α)
    (h : sortLe le l = []) : l = [] := by
  cases l with
  | nil => rfl
  | cons x xs =>
    exfalso
    have hx : x ∈ sortLe le (x :: xs) := by simp [mem_sortLe]
    rw [h] at hx
    simp at hx

/-- The head of the stable sort is a minimum of the list, provided the
boolean relation is total and transitive. -/
theorem sortLe_head_min {α : Type} (le : α → α → Bool)
    (htot : ∀ a b, le a b || le b a)
    (htrans : ∀ a b c, le a b = true → le b c = true → le a c = true) :
    ∀ (l : List α) (x : α) (xs : List α), sortLe le l = x :: xs →
      x ∈ l ∧ ∀ y ∈ l, le x y = true := by
  have hrefl : ∀ a, le a a = true := by
    intro a
    have := htot a a
    revert this
    cases h : le a a <;> simp
  intro l
  induction l with
  | nil => intro x xs h; simp [sortLe] at h
  | cons z zs ih =>
    intro x xs h
    rw [sortLe] at h
    cases hs : sortLe le zs with
    | nil =>
      have hz : zs = [] := sortLe_eq_nil le zs hs
      subst hz
      rw [hs] at h
      simp only [insertLe] at h
      injection h with h1 h2
      subst h1
      refine ⟨by simp, ?_⟩
      intro y hy
      simp at hy
      subst hy
      exact hrefl _
    | cons m ms =>
      obtain ⟨hmem, hmin⟩ := ih m ms hs
      rw [hs] at h
      rw [insertLe] at h
      by_cases hzm : le z m = true
      · rw [if_pos hzm] at h
        injection h with h1 h2
        subst h1
        refine ⟨by simp, ?_⟩
        intro y hy
        rcases List.mem_cons.mp hy with rfl | hy2
        · exact hrefl _
        · exact htrans _ m y hzm (hmin y hy2)
      · rw [if_neg hzm] at h
        injection h with h1 h2
        subst h1
        have hmz : le m z = true := by
          have h3 := htot z m
          cases hc : le z m
          · rw [hc] at h3
            simpa using h3
          · exact absurd hc (by simpa using hzm)
        refine ⟨List.mem_cons_of_mem _ hmem, ?_⟩
        intro y hy
        rcases List.mem_cons.mp hy with rfl | hy2
        · exact hmz
        · exact hmin y hy2

theorem head_mem_of_head_eq {α : Type} (l : List α) (x : α) (xs : List α)
    (h : l = x :: xs) : x ∈ l := by
  subst h
  simp

/-- zip(*lists) is no longer than any of the zipped lists. -/
theorem multiZip_le_length (ls : List (List Int)) :
    ∀ l ∈ ls, (multiZip ls).length ≤ l.length := by
  induction ls with
  | nil => simp
  | cons a ls ih =>
    cases ls with
    | nil =>
      intro l hl
      simp at hl
      subst hl
      simp [multiZip]
    | cons b ls2 =>
      intro l hl
      rcases List.mem_cons.mp hl with rfl | hl2
      · rw [show multiZip (l :: b :: ls2) =
            (l.zip (multiZip (b :: ls2))).map (fun p => p.1 :: p.2) from rfl]
        rw [List.length_map, List.length_zip]
        exact min_le_left _ _
      · have h1 : (multiZip (a :: b :: ls2)).length ≤ (multiZip (b :: ls2)).length := by
          rw [show multiZip (a :: b :: ls2) =
              (a.zip (multiZip (b :: ls2))).map (fun p => p.1 :: p.2) from rfl]
          rw [List.length_map, List.length_zip]
          exact min_le_right _ _
        exact le_trans h1 (ih _ hl2)

/-- zip(*lists) is exactly as long as some (shortest) zipped list. -/
theorem multiZip_eq_some_length (ls : List (List Int)) (h : ls ≠ []) :
    ∃ l ∈ ls, (multiZip ls).length = l.length := by
  induction ls with
  | nil => exact absurd rfl h
  | cons a ls ih =>
    cases ls with
    | nil => exact ⟨a, by simp, by simp [multiZip]⟩
    | cons b ls2 =>
      rcases ih (by simp) with ⟨l, hl, hlen⟩
      rcases Nat.le_total a.length (multiZip (b :: ls2)).length with hle | hle
      · exact ⟨a, by simp, by simp [multiZip, List.length_zip]; omega⟩
      · refine ⟨l, List.mem_cons_of_mem _ hl, ?_⟩
        rw [← hlen]
        simp [multiZip, List.length_zip]
        omega

/-- Entry i of zip(*lists) consists of entry i of every zipped list. -/
theorem multiZip_getD (ls : List (List Int)) :
    ∀ i, i < (multiZip ls).length →
      (multiZip ls).getD i [] = ls.map (fun l => l.getD i 0) := by
  induction ls with
  | nil => intro i hi; simp [multiZip] at hi
  | cons a ls ih =>
    cases ls with
    | nil =>
      intro i hi
      have hia : i < a.length := by simpa [multiZip] using hi
      rw [multiZip] at hi ⊢
      rw [List.getD_eq_getElem _ _ hi]
      simp [List.getD_eq_getElem?_getD, List.getElem?_eq_getElem hia]
    | cons b ls2 =>
      intro i hi
      have hz : multiZip (a :: b :: ls2) =
          (a.zip (multiZip (b :: ls2))).map (fun p => p.1 :: p.2) := rfl
      rw [hz] at hi ⊢
      have hzl : i < (a.zip (multiZip (b :: ls2))).length := by simpa using hi
      have hmin : i < min a.length (multiZip (b :: ls2)).length := by
        rw [List.length_zip] at hzl
        exact hzl
      have hia : i < a.length := lt_of_lt_of_le hmin (min_le_left _ _)
      have hir : i < (multiZip (b :: ls2)).length := lt_of_lt_of_le hmin (min_le_right _ _)
      rw [List.getD_eq_getElem _ _ hi, List.getElem_map, List.getElem_zip]
      have ihr := ih i hir
      rw [List.getD_eq_getElem _ _ hir] at ihr
      rw [ihr]
      simp [List.getD_eq_getElem?_getD, List.getElem?_eq_getElem hia]

theorem expandOptions_of_no_cycles (kw : Kwargs) (h : filterCycles kw = []) :
    expandOptions kw = [kw] := by
  rw [expandOptions]
  simp [h]

theorem expandOptions_of_cycles (kw : Kwargs) (h : filterCycles kw ≠ []) :
    expandOptions kw =
      (multiZip ((filterCycles kw).map (fun p => p.2.values))).map
        (fun tps => (((filterCycles kw).map (fun p => p.1)).zip (tps.map OptVal.static))
          ++ filterStatic kw) := by
  have he : (filterCycles kw).isEmpty = false := by
    cases hc : filterCycles kw
    · exact absurd hc h
    · rfl
  rw [expandOptions]
  simp [he]

theorem expandOptions_length_of_cycles (kw : Kwargs) (h : filterCycles kw ≠ []) :
    (expandOptions kw).length =
      (multiZip ((filterCycles kw).map (fun p => p.2.values))).length := by
  rw [expandOptions_of_cycles kw h, List.length_map]

/-- Entry i of the cyclic expansion: every Cycle key is bound to entry i
of its values, followed by the static items. -/
theorem expandOptions_getD_of_cycles (kw : Kwargs) (h : filterCycles kw ≠ [])
    (i : Nat) (hi : i < (expandOptions kw).length) :
    (expandOptions kw).getD i [] =
      (filterCycles kw).map (fun p => (p.1, OptVal.static (p.2.values.getD i 0)))
        ++ filterStatic kw := by
  rw [expandOptions_of_cycles kw h] at hi ⊢
  rw [List.getD_eq_getElem _ _ hi, List.getElem_map]
  have hi2 : i < (multiZip ((filterCycles kw).map (fun p => p.2.values))).length := by
    simpa using hi
  have htup := multiZip_getD ((filterCycles kw).map (fun p => p.2.values)) i hi2
  rw [List.getD_eq_getElem _ _ hi2] at htup
  rw [htup]
  congr 1
  simp [List.map_map, List.zip_map']

theorem optionsInit_ok_kwargs (key : Option String) (al : Option (List String))
    (kw : Kwargs) (o : OptionsE) (h : optionsInit key al kw = .ok o) : o.kwargs = kw := by
  cases al with
  | none =>
    have h2 : (Except.ok ⟨key, none, kw⟩ : Except OptionErrorE OptionsE) = .ok o := h
    cases h2
    rfl
  | some l =>
    cases l with
    | nil =>
      have h2 : (Except.ok ⟨key, none, kw⟩ : Except OptionErrorE OptionsE) = .ok o := h
      cases h2
      rfl
    | cons a as =>
      rw [optionsInit] at h
      cases hf : (sortLe strLe (kw.map (fun p => p.1))).find? (fun k => !(a :: as).contains k) with
      | some k =>
        rw [hf] at h
        cases h
      | none =>
        rw [hf] at h
        cases h
        rfl

theorem optionsCall_ok_kwargs (o : OptionsE) (aa : Option (List String)) (kw : Kwargs)
    (o2 : OptionsE) (h : optionsCall o aa kw = .ok o2) :
    o2.kwargs = dictMerge o.kwargs kw :=
  optionsInit_ok_kwargs o.key _ (dictMerge o.kwargs kw) o2 h

/-- The merging core of `_inherited_options`: a successful result stores
the current group kwargs merged under the override kwargs. -/
theorem inheritedOptions_kwargs (inst : Bool) (t : OTree) (i g : String) (o o2 : OptionsE)
    (h : inheritedOptions inst t i g o = .ok o2) (go : OptionsE)
    (hgo : lookupKw (childOrSelf t i).groups g = some go) :
    o2.kwargs = dictMerge go.kwargs o.kwargs := by
  rw [inheritedOptions] at h
  split at h
  · exact Except.noConfusion h
  · split at h
    · exact Except.noConfusion h
    · rename_i go2 hgo2
      split at h
      · rename_i o3 hoc
        cases h
        have hkw := optionsCall_ok_kwargs go2 _ o.kwargs o2 hoc
        rw [hgo2] at hgo
        cases hgo
        exact hkw
      · exact Except.noConfusion h

theorem buildGroups_lookup (inst : Bool) (t : OTree) (i : String)
    (gi : List (String × OptionsE)) :
    ∀ (l r : List (String × OptionsE)), buildGroups inst t i gi l = .ok r →
      ∀ (g : String) (gopts : OptionsE), lookupKw l g = some gopts →
        ∃ o2, lookupKw r g = some o2 ∧
          ((lookupKw gi g = none ∧ o2 = gopts) ∨
            ∃ o, lookupKw gi g = some o ∧ inheritedOptions inst t i g o = .ok o2) := by
  intro l
  induction l with
  | nil =>
    intro r h g gopts hg
    simp [lookupKw] at hg
  | cons p ps ih =>
    intro r h g gopts hg
    cases p with
    | mk g1 gopts1 =>
      rw [buildGroups] at h
      split at h
      · cases h
      · rename_i o2 heq2
        split at h
        · cases h
        · rename_i rest2 heq3
          cases h
          by_cases hpg : g1 = g
          · subst hpg
            rw [lookupKw, if_pos rfl] at hg ⊢
            cases hg
            refine ⟨o2, rfl, ?_⟩
            cases hgi : lookupKw gi g1 with
            | none =>
              rw [hgi] at heq2
              cases heq2
              exact Or.inl ⟨rfl, rfl⟩
            | some o =>
              rw [hgi] at heq2
              exact Or.inr ⟨o, rfl, heq2⟩
          · rw [lookupKw, if_neg hpg] at hg ⊢
            exact ih rest2 heq3 g gopts hg

/-- The storing step of `__setattr__`: a successful child assignment
stores, for every assigned group present in the schema, the merged
Options computed by `_inherited_options`. -/
theorem setChild_stores_merge (san : String → String) (inst : Bool) (t : OTree)
    (i : String) (gi : List (String × OptionsE)) (t2 : OTree)
    (h : setChild san inst t i gi = .ok t2)
    (g : String) (o : OptionsE) (hgi : lookupKw gi g = some o)
    (go : OptionsE) (hgo : lookupKw (childOrSelf t (san i)).groups g = some go) :
    ∃ c o2, lookupChild t2 (san i) = some c ∧ lookupKw c.groups g = some o2 ∧
      o2.kwargs = dictMerge go.kwargs o.kwargs := by
  rw [setChild] at h
  split at h
  · cases h
  · rename_i ng heq
    rcases buildGroups_lookup inst t (san i) gi _ ng heq g go hgo with ⟨o2, ho2, hdisj⟩
    split at h
    · cases h
    · cases h
      refine ⟨OTree.mk (san i) ng [], o2, ?_, ho2, ?_⟩
      · exact lookupKw_setEntry t.children (san i) _
      · rcases hdisj with ⟨hnone, _⟩ | ⟨o3, ho3, hinh⟩
        · rw [hnone] at hgi
          cases hgi
        · rw [ho3] at hgi
          cases hgi
          exact inheritedOptions_kwargs inst t (san i) g o o2 hinh go hgo

/-! ### Claim theorems -/

/-- C2: a successful child assignment merges the new group keywords into
the Options currently stored at that path (the stored kwargs are the
Python dict merge of the current kwargs under the new ones) rather than
replacing them; resolution merges keyword values with the descendant
value winning over the ancestor value at every key; and concretely,
after root.A = plot Options(x=1) and root.A.B = plot Options(y=2),
resolving plot at A.B yields x=1, y=2 while resolving at A yields x=1. -/
theorem optionTree_set_merge_resolve :
    (∀ (san : String → String) (inst : Bool) (t : OTree) (i : String)
        (gi : List (String × OptionsE)) (t2 : OTree) (g : String) (o go : OptionsE),
      setChild san inst t i gi = .ok t2 →
      lookupKw gi g = some o →
      lookupKw (childOrSelf t (san i)).groups g = some go →
      ∃ c o2, lookupChild t2 (san i) = some c ∧ lookupKw c.groups g = some o2 ∧
        o2.kwargs = dictMerge go.kwargs o.kwargs) ∧
    (∀ (anc desc : Kwargs) (k : String),
      lookupKw (dictMerge anc desc) k = optOr (lookupKw desc k) (lookupKw anc k)) ∧
    (((setPath sanId true tree0 ["A"] giX).bind
        (fun t1 => setPath sanId true t1 ["A", "B"] giY)).map
        (fun t2 => (resolveKwargs t2 "plot" ["A", "B"], resolveKwargs t2 "plot" ["A"])) =
      .ok (some [("x", OptVal.static 1), ("y", OptVal.static 2)],
        some [("x", OptVal.static 1)])) :=
  ⟨fun san inst t i gi t2 g o go h hgi hgo =>
      setChild_stores_merge san inst t i gi t2 h g o hgi go hgo,
   fun anc desc k => lookupKw_dictMerge anc desc k,
   rfl⟩

theorem optionTree_set_merge_resolve_w :
    ∃ c o2, lookupChild treeA (sanId "A") = some c ∧
      lookupKw c.groups "plot" = some o2 ∧
      o2.kwargs = dictMerge ({ kwargs := [] } : OptionsE).kwargs
        ({ kwargs := [("x", OptVal.static 1)] } : OptionsE).kwargs :=
  optionTree_set_merge_resolve.1 sanId true tree0 "A" giX treeA "plot"
    { kwargs := [("x", OptVal.static 1)] } { kwargs := [] } rfl rfl rfl

/-- C9: resolving the values of a Cycle fails exactly when neither explicit
values nor a valid lookup key were supplied, or the lookup key is absent
from the catalog; explicit values are returned as given and never fail. -/
theorem getValues_failure_condition (catalog : List (String × List Int)) (c : CycleE) :
    (c.values ≠ [] → getValues catalog c = .ok c.values) ∧
    ((getValues catalog c).isOk = false ↔
      c.values = [] ∧ (c.key = "" ∨ lookupKw catalog c.key = none)) := by
  constructor
  · intro h
    rw [getValues, if_pos h]
  · rw [getValues]
    by_cases hv : c.values = []
    · rw [if_neg (fun h2 => h2 hv)]
      by_cases hk : c.key = ""
      · rw [if_neg (fun h2 => h2 hk)]
        simp [Except.isOk, Except.toBool, hv, hk]
      · rw [if_pos hk]
        cases hl : lookupKw catalog c.key with
        | some vs => simp [Except.isOk, Except.toBool, hv, hk, hl]
        | none => simp [Except.isOk, Except.toBool, hv, hk, hl]
    · rw [if_pos hv]
      simp [Except.isOk, Except.toBool, hv]

theorem getValues_failure_condition_w :
    getValues ([] : List (String × List Int)) ⟨"", [5]⟩ = .ok [5] ∧
    ((getValues [("k", [7])] ⟨"k", []⟩).isOk = false ↔
      (⟨"k", []⟩ : CycleE).values = [] ∧
        ((⟨"k", []⟩ : CycleE).key = "" ∨
          lookupKw [("k", ([7] : List Int))] (⟨"k", []⟩ : CycleE).key = none)) :=
  ⟨(getValues_failure_condition ([] : List (String × List Int)) ⟨"", [5]⟩).1 (by decide),
   (getValues_failure_condition [("k", [7])] ⟨"k", []⟩).2⟩

/-- C3: the expansion is exactly the original keyword mapping when no
value is a Cycle; otherwise it is the position-wise zip across all
Cycle-valued keywords (its length is that of the shortest Cycle, so a
parallel cycling and not a cross-product), each entry combined with all
static keywords. -/
theorem expandOptions_zip_spec (kw : Kwargs) :
    (filterCycles kw = [] → expandOptions kw = [kw]) ∧
    (filterCycles kw ≠ [] →
      (∀ p ∈ filterCycles kw, (expandOptions kw).length ≤ p.2.values.length) ∧
      (∃ p ∈ filterCycles kw, (expandOptions kw).length = p.2.values.length) ∧
      ∀ i, i < (expandOptions kw).length →
        (expandOptions kw).getD i [] =
          (filterCycles kw).map (fun p => (p.1, OptVal.static (p.2.values.getD i 0)))
            ++ filterStatic kw) := by
  refine ⟨expandOptions_of_no_cycles kw, fun h => ⟨?_, ?_, ?_⟩⟩
  · intro p hp
    rw [expandOptions_length_of_cycles kw h]
    exact multiZip_le_length _ _ (List.mem_map.mpr ⟨p, hp, rfl⟩)
  · rcases multiZip_eq_some_length ((filterCycles kw).map (fun p => p.2.values))
      (by simpa using h) with ⟨l, hl, hlen⟩
    rcases List.mem_map.mp hl with ⟨p, hp, rfl⟩
    refine ⟨p, hp, ?_⟩
    rw [expandOptions_length_of_cycles kw h]
    exact hlen
  · intro i hi
    exact expandOptions_getD_of_cycles kw h i hi

theorem expandOptions_zip_spec_w :
    (∀ p ∈ filterCycles kwC3, (expandOptions kwC3).length ≤ p.2.values.length) ∧
    (∃ p ∈ filterCycles kwC3, (expandOptions kwC3).length = p.2.values.length) ∧
    (∀ i, i < (expandOptions kwC3).length →
      (expandOptions kwC3).getD i [] =
        (filterCycles kwC3).map (fun p => (p.1, OptVal.static (p.2.values.getD i 0)))
          ++ filterStatic kwC3) :=
  (expandOptions_zip_spec kwC3).2 (by decide)

/-- C10: with two or more Cycle-valued keywords of unequal lengths,
construction succeeds without error, the expansion is as long as the
shortest Cycle, and the trailing values of every longer Cycle are
dropped (the expansion is strictly shorter than the longer Cycle). -/
theorem expandOptions_unequal_cycles (key : Option String) (kw : Kwargs)
    (p q : String × CycleE) (hp : p ∈ filterCycles kw) (_hq : q ∈ filterCycles kw)
    (hlt : p.2.values.length < q.2.values.length) :
    (optionsInit key none kw).isOk = true ∧
    (∀ r ∈ filterCycles kw, (expandOptions kw).length ≤ r.2.values.length) ∧
    (∃ r ∈ filterCycles kw, (expandOptions kw).length = r.2.values.length) ∧
    (expandOptions kw).length < q.2.values.length := by
  have h : filterCycles kw ≠ [] := by
    intro h0
    rw [h0] at hp
    simp at hp
  have hle : ∀ r ∈ filterCycles kw, (expandOptions kw).length ≤ r.2.values.length := by
    intro r hr
    rw [expandOptions_length_of_cycles kw h]
    exact multiZip_le_length _ _ (List.mem_map.mpr ⟨r, hr, rfl⟩)
  refine ⟨rfl, hle, ?_, lt_of_le_of_lt (hle p hp) hlt⟩
  rcases multiZip_eq_some_length ((filterCycles kw).map (fun r => r.2.values))
    (by simpa using h) with ⟨l, hl, hlen⟩
  rcases List.mem_map.mp hl with ⟨r, hr, rfl⟩
  refine ⟨r, hr, ?_⟩
  rw [expandOptions_length_of_cycles kw h]
  exact hlen

theorem expandOptions_unequal_cycles_w :
    (optionsInit none none kwC3).isOk = true ∧
    (∀ r ∈ filterCycles kwC3, (expandOptions kwC3).length ≤ r.2.values.length) ∧
    (∃ r ∈ filterCycles kwC3, (expandOptions kwC3).length = r.2.values.length) ∧
    (expandOptions kwC3).length < (([1, 2, 3] : List Int)).length :=
  expandOptions_unequal_cycles none kwC3 ("b", ⟨"", [4, 5]⟩) ("a", ⟨"", [1, 2, 3]⟩)
    (by decide) (by decide) (by decide)

/-- C4: integer indexing returns the expansion entry at index i modulo
the expansion length; with a single Cycle of length n the indexing is
n-periodic; without Cycles every integer index yields the single
effective mapping. -/
theorem optionsGet_cyclic_spec (o : OptionsE) :
    (∀ i : Int, 0 < (expandOptions o.kwargs).length →
      optionsGet o i =
        (expandOptions o.kwargs).getD
          ((i.emod (expandOptions o.kwargs).length).toNat) []) ∧
    (∀ k c, filterCycles o.kwargs = [(k, c)] → 0 < c.values.length →
      ∀ i : Int, optionsGet o i = optionsGet o (i + c.values.length)) ∧
    (filterCycles o.kwargs = [] →
      ∀ i : Int, optionsGet o i = o.kwargs ∧ optionsProp o = some o.kwargs) := by
  refine ⟨fun i _ => rfl, ?_, ?_⟩
  · intro k c hkc hpos i
    have hn : (expandOptions o.kwargs).length = c.values.length := by
      rw [expandOptions_length_of_cycles o.kwargs (by simp [hkc])]
      rw [hkc]
      simp [multiZip]
    have hmod : Int.emod (i + (c.values.length : Int)) (c.values.length : Int) =
        Int.emod i (c.values.length : Int) := by
      have h2 := Int.add_mul_emod_self_left (a := i) (b := (c.values.length : Int)) (c := 1)
      rw [mul_one] at h2
      exact h2
    simp only [optionsGet, hn]
    rw [hmod]
  · intro hcyc i
    have he : expandOptions o.kwargs = [o.kwargs] := expandOptions_of_no_cycles _ hcyc
    have h1 : Int.emod i 1 = 0 := Int.emod_one i
    constructor
    · simp [optionsGet, he, h1]
    · simp [optionsProp, he]

theorem optionsGet_cyclic_spec_w :
    optionsGet o4 5 =
      (expandOptions o4.kwargs).getD
        (((5 : Int).emod (expandOptions o4.kwargs).length).toNat) [] ∧
    optionsGet o4 3 = optionsGet o4 5 ∧
    (optionsGet oStat 7 = oStat.kwargs ∧ optionsProp oStat = some oStat.kwargs) :=
  ⟨(optionsGet_cyclic_spec o4).1 5 (by decide),
   (optionsGet_cyclic_spec o4).2.1 "a" ⟨"", [1, 2]⟩ (by decide) (by decide) 3,
   (optionsGet_cyclic_spec oStat).2.2 (by decide) 7⟩

/-- C5 counterexample: an empty allow-list is non-None and "b" is absent
from it, yet construction succeeds, because the source guards validation
by Python truthiness (`if allowed_keywords and ...`), not by a None
check. -/
theorem optionsInit_empty_allowed_cex :
    (some ([] : List String) ≠ (none : Option (List String))) ∧
    ("b" ∉ ([] : List String)) ∧
    (optionsInit none (some []) [("b", OptVal.static 1)]).isOk = true :=
  ⟨by simp, by simp, rfl⟩

/-- C5 (amended): constructing an Options object with a non-empty
allowed-keywords list and any keyword argument absent from that list
fails immediately with an OptionError carrying an invalid keyword of the
mapping and the allowed set; in particular allowed_keywords=["a"] with
keyword b fails naming "b". -/
theorem optionsInit_invalid_keyword (key : Option String) (al : List String) (kw : Kwargs)
    (k : String) (hal : al ≠ []) (hk : k ∈ kw.map (fun p => p.1)) (hout : k ∉ al) :
    ∃ e, optionsInit key (some al) kw = .error e ∧
      e.invalid_keyword ∈ kw.map (fun p => p.1) ∧ e.invalid_keyword ∉ al ∧
      e.allowed_keywords = al := by
  cases al with
  | nil => exact absurd rfl hal
  | cons a as =>
    cases hf : (sortLe strLe (kw.map (fun p => p.1))).find?
        (fun k2 => !(a :: as).contains k2) with
    | none =>
      exfalso
      have h2 := List.find?_eq_none.mp hf k ((mem_sortLe _ _ _).mpr hk)
      simp at h2
      by_cases hka : k = a
      · exact hout (by simp [hka])
      · exact hout (List.mem_cons_of_mem _ (h2 hka))
    | some k2 =>
      have hred : optionsInit key (some (a :: as)) kw = .error ⟨k2, a :: as, none⟩ := by
        simp only [optionsInit]
        rw [hf]
      refine ⟨⟨k2, a :: as, none⟩, hred, ?_, ?_, rfl⟩
      · exact (mem_sortLe _ _ _).mp (List.mem_of_find?_eq_some hf)
      · have hp := List.find?_some hf
        simp at hp
        intro hmem
        rcases List.mem_cons.mp hmem with h1 | h1
        · exact hp.1 h1
        · exact hp.2 h1

/-- C1: when at least one registered compositor of the requested mode has
a non-None match level, strongest_match returns the head of the
ascending-sorted match list, a match of minimal score (so the lowest
score wins); with no qualifying match it returns None. -/
theorem strongestMatch_lowest_score (san : String → String) (defs : List CompositorE)
    (mode : String) (ov : List Elem) :
    (matchesFor san defs mode ov ≠ [] ↔
      ∃ c ∈ defs, c.mode = mode ∧ matchLevel san c ov ≠ none) ∧
    (matchesFor san defs mode ov = [] → strongestMatch san defs mode ov = none) ∧
    (matchesFor san defs mode ov ≠ [] →
      ∃ m, strongestMatch san defs mode ov = some m ∧
        m ∈ matchesFor san defs mode ov ∧
        ∀ m2 ∈ matchesFor san defs mode ov, m.1 ≤ m2.1) := by
  refine ⟨⟨fun h => ?_, fun h h0 => ?_⟩, fun h => ?_, fun h => ?_⟩
  · have h2 := mt List.filterMap_eq_nil_iff.mpr h
    push_neg at h2
    rcases h2 with ⟨c, hc, hfc⟩
    have hc2 := List.mem_filter.mp hc
    refine ⟨c, hc2.1, by simpa using hc2.2, fun h0 => ?_⟩
    exact hfc (by simp [h0])
  · rcases h with ⟨c, hc, hm, hml⟩
    have h2 : (matchLevel san c ov).map (fun m => (m.1, c, m.2)) = none :=
      List.filterMap_eq_nil_iff.mp h0 c (List.mem_filter.mpr ⟨hc, by simp [hm]⟩)
    cases hcase : matchLevel san c ov with
    | none => exact hml hcase
    | some v =>
      rw [hcase] at h2
      simp at h2
  · simp [strongestMatch, h, sortLe]
  · cases hs : sortLe (fun a b : Match => decide (a.1 ≤ b.1)) (matchesFor san defs mode ov) with
    | nil => exact absurd (sortLe_eq_nil _ _ hs) h
    | cons m tl =>
      have htot : ∀ a b : Match, (decide (a.1 ≤ b.1) || decide (b.1 ≤ a.1)) = true := by
        intro a b
        rcases Nat.le_total a.1 b.1 with h1 | h1 <;> simp [h1]
      have htrans : ∀ a b c : Match, decide (a.1 ≤ b.1) = true → decide (b.1 ≤ c.1) = true →
          decide (a.1 ≤ c.1) = true := by
        intro a b c h1 h2
        simp only [decide_eq_true_eq] at h1 h2 ⊢
        exact le_trans h1 h2
      have hmin := sortLe_head_min _ htot htrans _ m tl hs
      refine ⟨m, ?_, hmin.1, fun m2 hm2 => ?_⟩
      · show (sortLe (fun a b : Match => decide (a.1 ≤ b.1)) (matchesFor san defs mode ov)).head? = some m
        rw [hs]
        rfl
      · have h3 := hmin.2 m2 hm2
        simpa using h3

theorem strongestMatch_lowest_score_w :
    (matchesFor sanId [c1a, c1b] "data" [eR] ≠ [] ↔
      ∃ c ∈ [c1a, c1b], c.mode = "data" ∧ matchLevel sanId c [eR] ≠ none) ∧
    ∃ m, strongestMatch sanId [c1a, c1b] "data" [eR] = some m ∧
      m ∈ matchesFor sanId [c1a, c1b] "data" [eR] ∧
      ∀ m2 ∈ matchesFor sanId [c1a, c1b] "data" [eR], m.1 ≤ m2.1 :=
  ⟨(strongestMatch_lowest_score sanId [c1a, c1b] "data" [eR]).1,
   (strongestMatch_lowest_score sanId [c1a, c1b] "data" [eR]).2.2 (by decide)⟩

/-- C6: find walks greedily from the current node: a segment matched by
no child identifier is skipped without error; otherwise find descends
into a child whose identifier is a suffix of the raw or sanitized
segment of maximal length among the matches; on a tree whose only child
is Image, find ["Image", "Sub"] returns the Image node (and ["Image"]
in path mode). -/
theorem findNode_longest_suffix (san : String → String) (t : OTree) (seg : String)
    (rest : List String) :
    ((∀ cid ∈ t.children.map (fun p => p.1),
        (strEndsWith seg cid || strEndsWith (san seg) cid) = false) →
      findNode san t (seg :: rest) = findNode san t rest) ∧
    ((∃ cid ∈ t.children.map (fun p => p.1),
        (strEndsWith seg cid || strEndsWith (san seg) cid) = true) →
      ∃ cid c, cid ∈ t.children.map (fun p => p.1) ∧
        (strEndsWith seg cid || strEndsWith (san seg) cid) = true ∧
        (∀ cid2 ∈ t.children.map (fun p => p.1),
          (strEndsWith seg cid2 || strEndsWith (san seg) cid2) = true →
          cid2.length ≤ cid.length) ∧
        lookupChild t cid = some c ∧
        findNode san t (seg :: rest) = findNode san c rest) ∧
    (findNode sanId timg ["Image", "Sub"] = imageNode ∧
      findPathIds sanId timg ["Image", "Sub"] = ["Image"]) := by
  refine ⟨fun h => ?_, fun h => ?_, rfl, rfl⟩
  · have hf : (t.children.map (fun p => p.1)).filter
        (fun c => strEndsWith seg c || strEndsWith (san seg) c) = [] := by
      rw [List.filter_eq_nil_iff]
      intro x hx
      simp [h x hx]
    have hb : bestChild san t seg = none := by
      rw [bestChild, hf]
      rfl
    simp only [findNode, hb]
  · rcases h with ⟨cid0, hcid0, hm0⟩
    have hne : (t.children.map (fun p => p.1)).filter
        (fun c => strEndsWith seg c || strEndsWith (san seg) c) ≠ [] := by
      intro h0
      have := List.filter_eq_nil_iff.mp h0 cid0 hcid0
      exact this hm0
    cases hs : sortLe (fun a b : String => decide (b.length ≤ a.length))
        ((t.children.map (fun p => p.1)).filter
          (fun c => strEndsWith seg c || strEndsWith (san seg) c)) with
    | nil => exact absurd (sortLe_eq_nil _ _ hs) hne
    | cons m tl =>
      have htot : ∀ a b : String, (decide (b.length ≤ a.length) ||
          decide (a.length ≤ b.length)) = true := by
        intro a b
        rcases Nat.le_total b.length a.length with h1 | h1 <;> simp [h1]
      have htrans : ∀ a b c : String, decide (b.length ≤ a.length) = true →
          decide (c.length ≤ b.length) = true → decide (c.length ≤ a.length) = true := by
        intro a b c h1 h2
        simp only [decide_eq_true_eq] at h1 h2 ⊢
        exact le_trans h2 h1
      have hmin := sortLe_head_min _ htot htrans _ m tl hs
      have hmem := List.mem_filter.mp hmin.1
      have hsome := lookupKw_isSome_of_mem t.children m hmem.1
      cases hlc : lookupKw t.children m with
      | none => rw [hlc] at hsome; simp at hsome
      | some c =>
        have hb : bestChild san t seg = some m := by
          rw [bestChild, hs]
          rfl
        refine ⟨m, c, hmem.1, hmem.2, fun cid2 h2a h2b => ?_, hlc, ?_⟩
        · have h3 := hmin.2 cid2 (List.mem_filter.mpr ⟨h2a, h2b⟩)
          simpa using h3
        · simp only [findNode, hb, lookupChild, hlc]

theorem findNode_longest_suffix_w :
    findNode sanId timg ["Nope"] = findNode sanId timg [] ∧
    ∃ cid c, cid ∈ timg.children.map (fun p => p.1) ∧
      (strEndsWith "Image" cid || strEndsWith (sanId "Image") cid) = true ∧
      (∀ cid2 ∈ timg.children.map (fun p => p.1),
        (strEndsWith "Image" cid2 || strEndsWith (sanId "Image") cid2) = true →
        cid2.length ≤ cid.length) ∧
      lookupChild timg cid = some c ∧
      findNode sanId timg ["Image"] = findNode sanId c [] :=
  ⟨(findNode_longest_suffix sanId timg "Nope" []).1 (by decide),
   (findNode_longest_suffix sanId timg "Image" []).2.1 (by decide)⟩

theorem eraseP_group_eq_filter (l : List CompositorE) (g : String)
    (h : (l.map (fun d => d.group)).Nodup) :
    l.eraseP (fun d => d.group == g) = l.filter (fun d => d.group != g) := by
  induction l with
  | nil => rfl
  | cons d ds ih =>
    simp only [List.map_cons, List.nodup_cons] at h
    by_cases hd : d.group = g
    · have hds : ds.filter (fun x => x.group != g) = ds := by
        rw [List.filter_eq_self]
        intro x hx
        have : x.group ≠ g := by
          intro h0
          exact h.1 (List.mem_map.mpr ⟨x, hx, by rw [h0, hd]⟩)
        simpa using this
      simp [List.eraseP_cons, List.filter_cons, hd, hds]
    · simp [List.eraseP_cons, List.filter_cons, hd, ih h.2]

theorem registerC_defs_filter (st : RegState) (c : CompositorE)
    (h : (st.definitions.map (fun d => d.group)).Nodup) :
    (registerC st c).definitions =
      st.definitions.filter (fun d => d.group != c.group) ++ [c] := by
  rw [registerC]
  by_cases hc : (st.definitions.map (fun d => d.group)).contains c.group
  · simp only [hc, if_true]
    rw [eraseP_group_eq_filter st.definitions c.group h]
  · have hfs : st.definitions.filter (fun d => d.group != c.group) = st.definitions := by
      rw [List.filter_eq_self]
      intro x hx
      have : x.group ≠ c.group := by
        intro h0
        have hmem : c.group ∈ st.definitions.map (fun d => d.group) :=
          List.mem_map.mpr ⟨x, hx, h0⟩
        exact hc (by simpa using hmem)
      simpa using this
    have hc2 : (st.definitions.map (fun d => d.group)).contains c.group = false := by
      cases hb : (st.definitions.map (fun d => d.group)).contains c.group
      · rfl
      · exact absurd hb hc
    simp [hc2, hfs]
    intro x hx hxg
    exfalso
    exact hc (by simpa using
      (List.mem_map.mpr ⟨x, hx, hxg⟩ : c.group ∈ st.definitions.map (fun d => d.group)))

theorem registerC_groups_nodup (st : RegState) (c : CompositorE)
    (h : (st.definitions.map (fun d => d.group)).Nodup) :
    ((registerC st c).definitions.map (fun d => d.group)).Nodup := by
  rw [registerC_defs_filter st c h, List.map_append, List.nodup_append]
  refine ⟨?_, by simp, ?_⟩
  · exact h.sublist ((List.filter_sublist _).map _)
  · intro g hg hg2
    rcases List.mem_map.mp hg with ⟨d, hd, rfl⟩
    have hne : (d.group != c.group) = true := (List.mem_filter.mp hd).2
    simp at hg2
    rw [hg2] at hne
    simp at hne

theorem foldl_registerC_groups_nodup (cs : List CompositorE) :
    ∀ st : RegState, (st.definitions.map (fun d => d.group)).Nodup →
      (((cs.foldl registerC st).definitions).map (fun d => d.group)).Nodup := by
  induction cs with
  | nil => exact fun st h => h
  | cons c cs ih =>
    intro st h
    exact ih (registerC st c) (registerC_groups_nodup st c h)

theorem foldl_registerC_operations (cs : List CompositorE) :
    ∀ st : RegState, (cs.foldl registerC st).operations =
      (cs.map (fun c => c.opId)).foldl
        (fun acc x => if acc.contains x then acc else acc ++ [x]) st.operations := by
  induction cs with
  | nil => intro st; rfl
  | cons c cs ih =>
    intro st
    simp only [List.foldl_cons, List.map_cons]
    exact ih (registerC st c)

theorem opStep_nodup (o : List Nat) (x : Nat) (h : o.Nodup) :
    (if o.contains x then o else o ++ [x]).Nodup := by
  by_cases hc : o.contains x = true
  · rw [if_pos hc]
    exact h
  · rw [if_neg hc]
    have hx : x ∉ o := by simpa using hc
    simp [List.nodup_append, h, hx]

theorem foldl_opStep_nodup (l : List Nat) :
    ∀ o : List Nat, o.Nodup →
      (l.foldl (fun acc x => if acc.contains x then acc else acc ++ [x]) o).Nodup := by
  induction l with
  | nil => exact fun o h => h
  | cons x xs ih =>
    intro o h
    exact ih _ (opStep_nodup o x h)

/-- C7: from the empty registry, any sequence of register calls keeps at
most one compositor per output group; a register call on a duplicate-free
registry replaces exactly the rule of its group keeping the others in
order; the operations list holds each distinct operation exactly once in
first-seen order. -/
theorem registerC_registry_invariants (cs : List CompositorE) :
    ((cs.foldl registerC ⟨[], []⟩).definitions.map (fun d => d.group)).Nodup ∧
    (cs.foldl registerC ⟨[], []⟩).operations = firstSeen (cs.map (fun c => c.opId)) ∧
    (cs.foldl registerC ⟨[], []⟩).operations.Nodup ∧
    (∀ st : RegState, ∀ c : CompositorE,
      (st.definitions.map (fun d => d.group)).Nodup →
      (registerC st c).definitions =
        st.definitions.filter (fun d => d.group != c.group) ++ [c]) := by
  refine ⟨?_, ?_, ?_, registerC_defs_filter⟩
  · exact foldl_registerC_groups_nodup cs ⟨[], []⟩ (by simp)
  · exact foldl_registerC_operations cs ⟨[], []⟩
  · rw [foldl_registerC_operations cs ⟨[], []⟩]
    exact foldl_opStep_nodup _ [] (by simp)

theorem registerC_registry_invariants_w :
    (([c1a, c1b, c1a2].foldl registerC ⟨[], []⟩).definitions.map (fun d => d.group)).Nodup ∧
    ([c1a, c1b, c1a2].foldl registerC ⟨[], []⟩).operations =
      firstSeen ([c1a, c1b, c1a2].map (fun c => c.opId)) ∧
    (registerC ⟨[c1a, c1b], [0, 1]⟩ c1a2).definitions =
      [c1a, c1b].filter (fun d => d.group != c1a2.group) ++ [c1a2] :=
  ⟨(registerC_registry_invariants [c1a, c1b, c1a2]).1,
   (registerC_registry_invariants [c1a, c1b, c1a2]).2.1,
   (registerC_registry_invariants [c1a, c1b, c1a2]).2.2.2 ⟨[c1a, c1b], [0, 1]⟩ c1a2
     (by decide)⟩

/-- C8: collapse_element returns the overlay unchanged when no
compositor matches; otherwise it cuts out exactly the matched slice,
applies the selected operation to that sub-sequence, relabels the result
with the compositor output group, splices it back in place leaving the
elements outside the slice in order, and keeps the original overlay id. -/
theorem collapseElement_splice (san : String → String)
    (opRun : Nat → Option Int → Elem ⊕ List Elem → Elem) (defs : List CompositorE)
    (ov : OverlayE) (key : Option Int) (mode : String) :
    (strongestMatch san defs mode ov.values = none →
      collapseElement san opRun defs ov key mode = ov) ∧
    (∀ s c a b, strongestMatch san defs mode ov.values = some (s, c, (a, b)) →
      collapseElement san opRun defs ov key mode =
        { values := ov.values.take a
            ++ [relabel (applyOp opRun c ((ov.values.drop a).take (b - a)) key) c.group]
            ++ ov.values.drop b,
          oid := ov.oid }) ∧
    (∀ e g, relabel e g = { typeName := e.typeName, group := g, label := e.label }) := by
  refine ⟨fun h => ?_, fun s c a b h => ?_, fun e g => rfl⟩
  · simp only [collapseElement, h]
  · simp only [collapseElement, h]

theorem collapseElement_splice_w :
    collapseElement sanId opRunW [cRGB] ⟨[eX, eR, eG], some 7⟩ none "data" =
      { values := ([eX, eR, eG] : List Elem).take 1
          ++ [relabel (applyOp opRunW cRGB
                ((([eX, eR, eG] : List Elem).drop 1).take (3 - 1)) none) cRGB.group]
          ++ ([eX, eR, eG] : List Elem).drop 3,
        oid := some 7 } :=
  (collapseElement_splice sanId opRunW [cRGB] ⟨[eX, eR, eG], some 7⟩ none "data").2.1
    4 cRGB 1 3 rfl

theorem optionsInit_invalid_keyword_w :
    (["a"] ≠ ([] : List String)) ∧
    ∃ e, optionsInit none (some ["a"]) [("b", OptVal.static 1)] = .error e ∧
      e.invalid_keyword ∈ ([("b", OptVal.static 1)] : Kwargs).map (fun p => p.1) ∧
      e.invalid_keyword ∉ ["a"] ∧ e.allowed_keywords = ["a"] :=
  ⟨by decide,
   optionsInit_invalid_keyword none ["a"] [("b", OptVal.static 1)] "b"
     (by decide) (by decide) (by decide)⟩

end Holo
